import Mathlib

/-!
Shallow embedding of the live-assistant core (src/server.py): the VAD segmenter
state machine of `_continuous_mic_loop`, the transcription dispatcher
`_transcribe_and_enqueue`, the long-poll event stream `_wait_for_comments_impl`,
and the speech-output path `_speak_impl_locked`.  Frames are abstracted by a
type parameter `F`; times and probabilities are rationals; machine floats in
the source only ever carry small decimal constants, which ℚ represents exactly.
-/

/-- The three values of `state` / `ctx.mic_vad_state` in `_continuous_mic_loop`. -/
inductive VadState : Type
  | IDLE
  | SPEAKING
  | TRAILING
deriving DecidableEq

/-- The mutable per-loop segmenter state of `_continuous_mic_loop`:
`state`, `ring_buf` (deque with maxlen), `speech_buf`, `speech_start_time`,
`silence_start_time`.  The ring is a list with its oldest element first. -/
structure SegState (F : Type) where
  state : VadState
  ringBuf : List F
  speechBuf : List F
  speechStart : ℚ
  silenceStart : ℚ
deriving DecidableEq

/-- The loop-local state right after initialisation (line 503-506 of server.py):
`state = "IDLE"`, empty buffers, zeroed clocks. -/
def initialSegState (F : Type) : SegState F :=
  { state := VadState.IDLE, ringBuf := [], speechBuf := [], speechStart := 0, silenceStart := 0 }

/-- Configuration values read from `config["vad"]` in `_continuous_mic_loop`. -/
structure MicConfig where
  speechThreshold : ℚ
  silenceDuration : ℚ
  maxSpeechSec : ℚ
  preBufferFrames : ℕ

/-- One element handed to the per-frame logic: the flattened frame, the VAD
probability `prob` returned by `vad.process`, and the wall-clock `now`. -/
structure MicInput (F : Type) where
  frame : F
  prob : ℚ
  now : ℚ

/-- Truncation toward zero, as Python int() does, on exact rationals. -/
def pyTrunc (x : ℚ) : ℤ :=
  if 0 ≤ x then ⌊x⌋ else -⌊-x⌋

/-- The assignment `pre_buffer_frames = max(1, int(pre_buffer_sec * sample_rate / frame_samples))`
(line 476 of server.py). -/
def preBufferFrames (preBufferSec : ℚ) (sampleRate frameSamples : ℕ) : ℕ :=
  max 1 (pyTrunc (preBufferSec * sampleRate / frameSamples)).toNat

/-- Model of `ring_buf.append(frame)` on a `deque(maxlen=cap)`: append on the right,
dropping from the left whatever exceeds the capacity. -/
def pushRing {F : Type} (cap : ℕ) (r : List F) (f : F) : List F :=
  (r ++ [f]).drop ((r ++ [f]).length - cap)

/-- One pass of the frame-processing `if/elif` ladder of `_continuous_mic_loop`
(lines 524-564 of server.py).  Returns the updated state and, when a flush
happened, the utterance buffer handed to `_transcribe_and_enqueue`. -/
def micStep {F : Type} (cfg : MicConfig) (s : SegState F) (f : F) (p now : ℚ) :
    SegState F × Option (List F) :=
  match s.state with
  | VadState.IDLE =>
    if cfg.speechThreshold ≤ p then
      ({ state := VadState.SPEAKING, ringBuf := [], speechBuf := s.ringBuf ++ [f],
         speechStart := now, silenceStart := s.silenceStart }, none)
    else
      ({ s with ringBuf := pushRing cfg.preBufferFrames s.ringBuf f }, none)
  | VadState.SPEAKING =>
    let buf := s.speechBuf ++ [f]
    if cfg.maxSpeechSec ≤ now - s.speechStart then
      ({ state := VadState.IDLE, ringBuf := [], speechBuf := [],
         speechStart := s.speechStart, silenceStart := s.silenceStart }, some buf)
    else if p < cfg.speechThreshold then
      ({ s with state := VadState.TRAILING, speechBuf := buf, silenceStart := now }, none)
    else
      ({ s with speechBuf := buf }, none)
  | VadState.TRAILING =>
    let buf := s.speechBuf ++ [f]
    if cfg.speechThreshold ≤ p then
      ({ s with state := VadState.SPEAKING, speechBuf := buf }, none)
    else if cfg.silenceDuration ≤ now - s.silenceStart then
      ({ state := VadState.IDLE, ringBuf := [], speechBuf := [],
         speechStart := s.speechStart, silenceStart := s.silenceStart }, some buf)
    else
      ({ s with speechBuf := buf }, none)

/-- The frame loop run over a list of inputs, collecting every flushed
utterance in order. -/
def micRun {F : Type} (cfg : MicConfig) (s : SegState F) :
    List (MicInput F) → SegState F × List (List F)
  | [] => (s, [])
  | i :: rest =>
    let step := micStep cfg s i.frame i.prob i.now
    let restRun := micRun cfg step.1 rest
    (restRun.1, step.2.toList ++ restRun.2)

/-- The default VAD configuration of server.py: `speech_threshold = 0.5`,
`silence_duration = 2.0`, `max_speech_sec = 30`, and the pre-roll capacity
computed from `pre_buffer_sec = 0.3`, 16000 Hz, 512-sample frames (= 9). -/
def micCfgD : MicConfig :=
  { speechThreshold := 1/2, silenceDuration := 2, maxSpeechSec := 30, preBufferFrames := 9 }

lemma pushRing_length {F : Type} (cap : ℕ) (r : List F) (f : F) :
    (pushRing cap r f).length = min (r.length + 1) cap := by
  simp [pushRing]
  omega

lemma pushRing_of_lt {F : Type} (cap : ℕ) (r : List F) (f : F) (h : r.length < cap) :
    pushRing cap r f = r ++ [f] := by
  unfold pushRing
  have h0 : (r ++ [f]).length - cap = 0 := by
    simp
    omega
  rw [h0, List.drop_zero]

lemma micRun_append {F : Type} (cfg : MicConfig) (l1 l2 : List (MicInput F)) :
    ∀ s : SegState F,
      micRun cfg s (l1 ++ l2) =
        ((micRun cfg (micRun cfg s l1).1 l2).1,
         (micRun cfg s l1).2 ++ (micRun cfg (micRun cfg s l1).1 l2).2) := by
  induction l1 with
  | nil => intro s; simp [micRun]
  | cons i rest ih =>
    intro s
    simp only [List.cons_append, micRun, List.append_eq]
    rw [ih (micStep cfg s i.frame i.prob i.now).1]
    simp [List.append_assoc]

lemma micRun_idle {F : Type} (cfg : MicConfig) (pre : List (MicInput F)) :
    ∀ s : SegState F, s.state = VadState.IDLE →
      (∀ i ∈ pre, i.prob < cfg.speechThreshold) →
      micRun cfg s pre =
        ({ s with ringBuf :=
            pre.foldl (fun r i => pushRing cfg.preBufferFrames r i.frame) s.ringBuf }, []) := by
  induction pre with
  | nil => intro s _ _; simp [micRun]
  | cons i rest ih =>
    intro s hs hlt
    have hip : i.prob < cfg.speechThreshold := hlt i (by simp)
    have hstep : micStep cfg s i.frame i.prob i.now =
        ({ s with ringBuf := pushRing cfg.preBufferFrames s.ringBuf i.frame }, none) := by
      unfold micStep
      rw [hs]
      rw [if_neg (not_le.mpr hip)]
    simp only [micRun, hstep]
    rw [ih _ (by simp [hs]) (fun j hj => hlt j (by simp [hj]))]
    simp [List.foldl_cons]

lemma foldl_pushRing {F : Type} (cap : ℕ) (l : List (MicInput F)) :
    ∀ r : List F, r.length + l.length ≤ cap →
      l.foldl (fun r i => pushRing cap r i.frame) r = r ++ l.map MicInput.frame := by
  induction l with
  | nil => intro r _; simp
  | cons i rest ih =>
    intro r hle
    simp only [List.foldl_cons]
    rw [pushRing_of_lt _ _ _ (by simp at hle; omega)]
    rw [ih (r ++ [i.frame]) (by simp at hle ⊢; omega)]
    simp

lemma micRun_speaking {F : Type} (cfg : MicConfig) (l : List (MicInput F)) :
    ∀ s : SegState F, s.state = VadState.SPEAKING →
      (∀ i ∈ l, cfg.speechThreshold ≤ i.prob ∧ i.now - s.speechStart < cfg.maxSpeechSec) →
      micRun cfg s l = ({ s with speechBuf := s.speechBuf ++ l.map MicInput.frame }, []) := by
  induction l with
  | nil => intro s _ _; simp [micRun]
  | cons i rest ih =>
    intro s hs h
    obtain ⟨hp, ht⟩ := h i (by simp)
    have hstep : micStep cfg s i.frame i.prob i.now =
        ({ s with speechBuf := s.speechBuf ++ [i.frame] }, none) := by
      unfold micStep
      rw [hs]
      simp only
      rw [if_neg (not_le.mpr ht), if_neg (not_lt.mpr hp)]
    simp only [micRun, hstep]
    rw [ih ({ s with speechBuf := s.speechBuf ++ [i.frame] }) (by simp [hs])
        (fun j hj => h j (List.mem_cons_of_mem _ hj))]
    simp

lemma micRun_trailing {F : Type} (cfg : MicConfig) (l : List (MicInput F)) :
    ∀ s : SegState F, s.state = VadState.TRAILING →
      (∀ i ∈ l, i.prob < cfg.speechThreshold ∧ i.now - s.silenceStart < cfg.silenceDuration) →
      micRun cfg s l = ({ s with speechBuf := s.speechBuf ++ l.map MicInput.frame }, []) := by
  induction l with
  | nil => intro s _ _; simp [micRun]
  | cons i rest ih =>
    intro s hs h
    obtain ⟨hp, ht⟩ := h i (by simp)
    have hstep : micStep cfg s i.frame i.prob i.now =
        ({ s with speechBuf := s.speechBuf ++ [i.frame] }, none) := by
      unfold micStep
      rw [hs]
      simp only
      rw [if_neg (not_le.mpr hp), if_neg (not_le.mpr ht)]
    simp only [micRun, hstep]
    rw [ih ({ s with speechBuf := s.speechBuf ++ [i.frame] }) (by simp [hs])
        (fun j hj => h j (List.mem_cons_of_mem _ hj))]
    simp

/-- Claim C1: while IDLE, a frame scoring at/above `speech_threshold` moves the
segmenter to SPEAKING with the new utterance buffer equal to the pre-roll ring
contents in order followed by the current frame, the ring cleared and
`speech_start = now`; a frame scoring below threshold is pushed into the ring
(oldest evicted on overflow) and the state stays IDLE; and for N below-threshold
frames followed by one at/above-threshold frame with N ≤ ring capacity, starting
from the fresh segmenter, the seeded utterance buffer (hence the finalized
utterance prefix) is exactly those N frames in order then the trigger. -/
theorem c1_idle_transition {F : Type} (cfg : MicConfig) (s : SegState F) (f : F) (p now : ℚ)
    (hIdle : s.state = VadState.IDLE) :
    (cfg.speechThreshold ≤ p →
      micStep cfg s f p now =
        ({ state := VadState.SPEAKING, ringBuf := [], speechBuf := s.ringBuf ++ [f],
           speechStart := now, silenceStart := s.silenceStart }, none)) ∧
    (p < cfg.speechThreshold →
      micStep cfg s f p now =
        ({ s with ringBuf := pushRing cfg.preBufferFrames s.ringBuf f }, none)) ∧
    (∀ pre : List (MicInput F), pre.length ≤ cfg.preBufferFrames →
      (∀ i ∈ pre, i.prob < cfg.speechThreshold) →
      cfg.speechThreshold ≤ p →
      micRun cfg (initialSegState F) (pre ++ [⟨f, p, now⟩]) =
        ({ state := VadState.SPEAKING, ringBuf := [],
           speechBuf := List.map MicInput.frame pre ++ [f],
           speechStart := now, silenceStart := 0 }, [])) := by
  refine ⟨?_, ?_, ?_⟩
  · intro hp
    unfold micStep
    rw [hIdle, if_pos hp]
  · intro hp
    unfold micStep
    rw [hIdle, if_neg (not_le.mpr hp)]
  · intro pre hlen hlt hp
    rw [micRun_append]
    rw [micRun_idle cfg pre (initialSegState F) rfl hlt]
    simp only [initialSegState]
    rw [foldl_pushRing cfg.preBufferFrames pre ([] : List F) (by simpa using hlen)]
    simp [micRun, micStep, hp]

theorem c1_witness :
    micStep micCfgD (initialSegState ℕ) 7 1 0 =
      ({ state := VadState.SPEAKING, ringBuf := [], speechBuf := [7],
         speechStart := 0, silenceStart := 0 }, none) :=
  (c1_idle_transition micCfgD (initialSegState ℕ) 7 1 0 rfl).1 (by norm_num [micCfgD])

/-- Claim C4: a run of at/above-threshold frames processed while SPEAKING, the
last of which reaches `max_speech_sec` elapsed since `speech_start`, produces
exactly one finalize, at the max-duration boundary frame, carrying the whole
accumulated buffer; afterwards the state is IDLE with an empty pre-roll ring
and an empty utterance buffer, so segmentation restarts fresh. -/
theorem c4_max_duration_flush {F : Type} (cfg : MicConfig) (s : SegState F)
    (pre : List (MicInput F)) (b : MicInput F)
    (hSp : s.state = VadState.SPEAKING)
    (hpre : ∀ i ∈ pre, cfg.speechThreshold ≤ i.prob ∧ i.now - s.speechStart < cfg.maxSpeechSec)
    (_hbp : cfg.speechThreshold ≤ b.prob)
    (hbt : cfg.maxSpeechSec ≤ b.now - s.speechStart) :
    micRun cfg s (pre ++ [b]) =
      ({ state := VadState.IDLE, ringBuf := [], speechBuf := [],
         speechStart := s.speechStart, silenceStart := s.silenceStart },
       [s.speechBuf ++ (List.map MicInput.frame pre ++ [b.frame])]) := by
  rw [micRun_append]
  rw [micRun_speaking cfg pre s hSp hpre]
  have hstep : micStep cfg ({ s with speechBuf := s.speechBuf ++ List.map MicInput.frame pre })
      b.frame b.prob b.now =
      ({ state := VadState.IDLE, ringBuf := [], speechBuf := [],
         speechStart := s.speechStart, silenceStart := s.silenceStart },
       some ((s.speechBuf ++ List.map MicInput.frame pre) ++ [b.frame])) := by
    unfold micStep
    simp only [hSp]
    rw [if_pos hbt]
  simp only [micRun, hstep]
  simp

theorem c4_witness :
    micRun micCfgD ({ state := VadState.SPEAKING, ringBuf := [], speechBuf := [1],
                      speechStart := 0, silenceStart := 0 } : SegState ℕ) [⟨2, 1, 30⟩] =
      ({ state := VadState.IDLE, ringBuf := [], speechBuf := [],
         speechStart := 0, silenceStart := 0 }, [[1, 2]]) :=
  c4_max_duration_flush micCfgD _ [] ⟨2, 1, 30⟩ rfl (by intro i hi; cases hi)
    (by norm_num [micCfgD]) (by norm_num [micCfgD])

/-- Claim C5: from SPEAKING, a below-threshold gap shorter than
`silence_duration` followed by an at/above-threshold frame produces no finalize:
the state passes through TRAILING and returns to SPEAKING, and every frame of
the gap as well as the recovery frame is retained in the one accumulating
utterance buffer. -/
theorem c5_transient_silence {F : Type} (cfg : MicConfig) (s : SegState F)
    (g1 rv : MicInput F) (gap : List (MicInput F))
    (hSp : s.state = VadState.SPEAKING)
    (h1p : g1.prob < cfg.speechThreshold)
    (h1t : g1.now - s.speechStart < cfg.maxSpeechSec)
    (hgap : ∀ i ∈ gap, i.prob < cfg.speechThreshold ∧ i.now - g1.now < cfg.silenceDuration)
    (hrp : cfg.speechThreshold ≤ rv.prob) :
    micRun cfg s (g1 :: (gap ++ [rv])) =
      ({ s with state := VadState.SPEAKING,
                speechBuf := s.speechBuf ++ g1.frame :: (List.map MicInput.frame gap ++ [rv.frame]),
                silenceStart := g1.now }, []) := by
  have hstep1 : micStep cfg s g1.frame g1.prob g1.now =
      ({ s with state := VadState.TRAILING, speechBuf := s.speechBuf ++ [g1.frame],
                silenceStart := g1.now }, none) := by
    unfold micStep
    simp only [hSp]
    rw [if_neg (not_le.mpr h1t), if_pos h1p]
  simp only [micRun, hstep1]
  rw [micRun_append]
  rw [micRun_trailing cfg gap
      ({ s with state := VadState.TRAILING, speechBuf := s.speechBuf ++ [g1.frame],
                silenceStart := g1.now }) rfl (fun i hi => hgap i hi)]
  have hstep2 : micStep cfg
      ({ s with state := VadState.TRAILING,
                speechBuf := (s.speechBuf ++ [g1.frame]) ++ List.map MicInput.frame gap,
                silenceStart := g1.now }) rv.frame rv.prob rv.now =
      ({ s with state := VadState.SPEAKING,
                speechBuf := ((s.speechBuf ++ [g1.frame]) ++ List.map MicInput.frame gap) ++ [rv.frame],
                silenceStart := g1.now }, none) := by
    unfold micStep
    simp only
    rw [if_pos hrp]
  simp only [micRun, hstep2]
  simp

theorem c5_witness :
    micRun micCfgD ({ state := VadState.SPEAKING, ringBuf := [], speechBuf := [1],
                      speechStart := 0, silenceStart := 0 } : SegState ℕ) [⟨2, 0, 1⟩, ⟨3, 1, 2⟩] =
      ({ state := VadState.SPEAKING, ringBuf := [], speechBuf := [1, 2, 3],
         speechStart := 0, silenceStart := 1 }, []) :=
  c5_transient_silence micCfgD _ ⟨2, 0, 1⟩ ⟨3, 1, 2⟩ [] rfl (by norm_num [micCfgD])
    (by norm_num [micCfgD]) (by intro i hi; cases hi) (by norm_num [micCfgD])

/-- The per-frame invariant of the segmenter: outside IDLE the pre-roll ring is
empty and the utterance buffer non-empty; in IDLE the utterance buffer is empty. -/
def SegInv {F : Type} (s : SegState F) : Prop :=
  (s.state ≠ VadState.IDLE → s.ringBuf = [] ∧ s.speechBuf ≠ []) ∧
  (s.state = VadState.IDLE → s.speechBuf = [])

lemma segInv_step {F : Type} (cfg : MicConfig) (s : SegState F) (f : F) (p now : ℚ)
    (h : SegInv s) : SegInv (micStep cfg s f p now).1 := by
  obtain ⟨h1, h2⟩ := h
  cases hs : s.state with
  | IDLE =>
    simp only [micStep, hs]
    split_ifs with hp
    · exact ⟨fun _ => ⟨rfl, by simp⟩, by simp⟩
    · exact ⟨fun hne => absurd rfl hne, fun _ => h2 hs⟩
  | SPEAKING =>
    obtain ⟨hr, _⟩ := h1 (by simp [hs])
    simp only [micStep, hs]
    split_ifs with ht hp
    · exact ⟨fun hne => absurd rfl hne, fun _ => rfl⟩
    · exact ⟨fun _ => ⟨hr, by simp⟩, by simp⟩
    · exact ⟨fun _ => ⟨hr, by simp⟩, by simp⟩
  | TRAILING =>
    obtain ⟨hr, _⟩ := h1 (by simp [hs])
    simp only [micStep, hs]
    split_ifs with hp ht
    · exact ⟨fun _ => ⟨hr, by simp⟩, by simp⟩
    · exact ⟨fun hne => absurd rfl hne, fun _ => rfl⟩
    · exact ⟨fun _ => ⟨hr, by simp⟩, by simp⟩

lemma segInv_run {F : Type} (cfg : MicConfig) (inputs : List (MicInput F)) :
    ∀ s : SegState F, SegInv s → SegInv (micRun cfg s inputs).1 := by
  induction inputs with
  | nil => intro s h; exact h
  | cons i rest ih =>
    intro s h
    exact ih _ (segInv_step cfg s i.frame i.prob i.now h)

/-- Claim C10: the per-frame segmenter step keeps the invariant that outside
IDLE the pre-roll ring is empty and the utterance buffer non-empty, and that in
IDLE the utterance buffer is empty; it holds initially and along every run. -/
theorem c10_invariant {F : Type} (cfg : MicConfig) :
    SegInv (initialSegState F) ∧
    (∀ (s : SegState F) (f : F) (p now : ℚ), SegInv s → SegInv (micStep cfg s f p now).1) ∧
    (∀ inputs : List (MicInput F), SegInv (micRun cfg (initialSegState F) inputs).1) := by
  refine ⟨⟨by simp [initialSegState], by simp [initialSegState]⟩, ?_, ?_⟩
  · intro s f p now h
    exact segInv_step cfg s f p now h
  · intro inputs
    exact segInv_run cfg inputs _ ⟨by simp [initialSegState], by simp [initialSegState]⟩

theorem c10_witness :
    SegInv (micStep micCfgD (initialSegState ℕ) 5 1 0).1 :=
  (c10_invariant micCfgD).2.1 (initialSegState ℕ) 5 1 0
    ⟨by simp [initialSegState, SegInv], by simp [initialSegState, SegInv]⟩

/-- The result of `_wait_for_comments_impl`: the drained batch `newItems`, the
optional pre-update history snapshot, the history after appending and trimming,
and whether the call entered the blocking `asyncio.wait_for` branch. -/
structure WaitOutput (α : Type) where
  newItems : List α
  historySnapshot : Option (List α)
  updatedHistory : List α
  blocked : Bool

/-- The history append-and-trim of `_wait_for_comments_impl` (lines 704-708 of
server.py): append all drained items, then keep only the trailing
`_history_max` entries when the bound is exceeded. -/
def historyUpdate {α : Type} (histMax : ℕ) (history newItems : List α) : List α :=
  if histMax < (history ++ newItems).length then
    (history ++ newItems).drop ((history ++ newItems).length - histMax)
  else history ++ newItems

/-- The trailing `n` elements of a list. -/
def lastN {α : Type} (n : ℕ) (l : List α) : List α :=
  l.drop (l.length - n)

/-- Model of `_wait_for_comments_impl` (lines 665-714 of server.py) as a function of the
queue contents at entry (`queue`, in publish order), the time `t0` at which the
deadline was computed, the time `t1` at which the remaining-time check runs
(`t0 ≤ t1` in any real execution), and `arrival`: the event received by the
blocking `q.get()` together with the further events drained right after it
(`none` when the wait times out). -/
def waitForComments {α : Type} (timeoutSec t0 t1 : ℚ) (queue : List α)
    (arrival : Option (α × List α)) (history : List α)
    (includeHistory : Bool) (histMax : ℕ) : WaitOutput α :=
  let deadline := t0 + timeoutSec
  let drained : List α × Bool :=
    match queue with
    | [] =>
      if 0 < deadline - t1 then
        (Option.elim arrival [] (fun el => el.1 :: el.2), true)
      else ([], false)
    | q0 :: qrest => (q0 :: qrest, false)
  { newItems := drained.1
    historySnapshot := if includeHistory then some history else none
    updatedHistory := historyUpdate histMax history drained.1
    blocked := drained.2 }

/-- Claim C3: `wait` first drains all currently queued events into `new` in
publish (FIFO) order without blocking; it blocks only when that first drain is
empty and the remaining time is positive, in which case `new` is the awaited
event followed by everything drained right after it; with `timeout_sec = 0` and
an empty queue it returns `new = []` immediately and never blocks. -/
theorem c3_wait_long_poll {α : Type} (timeoutSec t0 t1 : ℚ) (queue : List α)
    (arrival : Option (α × List α)) (history : List α) (inc : Bool) (histMax : ℕ)
    (ht : t0 ≤ t1) :
    (queue ≠ [] →
      (waitForComments timeoutSec t0 t1 queue arrival history inc histMax).newItems = queue ∧
      (waitForComments timeoutSec t0 t1 queue arrival history inc histMax).blocked = false) ∧
    ((waitForComments timeoutSec t0 t1 queue arrival history inc histMax).blocked = true →
      queue = [] ∧ 0 < t0 + timeoutSec - t1) ∧
    (queue = [] → 0 < t0 + timeoutSec - t1 →
      (waitForComments timeoutSec t0 t1 queue arrival history inc histMax).newItems =
        Option.elim arrival [] (fun el => el.1 :: el.2) ∧
      (waitForComments timeoutSec t0 t1 queue arrival history inc histMax).blocked = true) ∧
    (timeoutSec = 0 → queue = [] →
      (waitForComments timeoutSec t0 t1 queue arrival history inc histMax).newItems = [] ∧
      (waitForComments timeoutSec t0 t1 queue arrival history inc histMax).blocked = false) := by
  refine ⟨?_, ?_, ?_, ?_⟩
  · intro hq
    cases queue with
    | nil => exact absurd rfl hq
    | cons q0 qrest => exact ⟨rfl, rfl⟩
  · intro hb
    cases queue with
    | nil =>
      refine ⟨rfl, ?_⟩
      by_contra hlt
      have : (waitForComments timeoutSec t0 t1 ([] : List α) arrival history inc histMax).blocked
          = false := by
        simp only [waitForComments]
        rw [if_neg hlt]
      rw [hb] at this
      exact Bool.noConfusion this
    | cons q0 qrest =>
      exact absurd hb (by simp [waitForComments])
  · intro hq hlt
    subst hq
    constructor
    · simp only [waitForComments]
      rw [if_pos hlt]
    · simp only [waitForComments]
      rw [if_pos hlt]
  · intro hz hq
    subst hq hz
    have hnp : ¬(0 < t0 + 0 - t1) := by
      intro hcon
      have := lt_of_lt_of_le hcon (by linarith : t0 + 0 - t1 ≤ 0)
      exact lt_irrefl 0 this
    constructor
    · simp only [waitForComments]
      rw [if_neg hnp]
    · simp only [waitForComments]
      rw [if_neg hnp]

theorem c3_witness :
    (waitForComments 0 5 5 ([] : List ℕ) none [] false 20).newItems = [] ∧
    (waitForComments 0 5 5 ([] : List ℕ) none [] false 20).blocked = false :=
  (c3_wait_long_poll 0 5 5 ([] : List ℕ) none [] false 20 (le_refl 5)).2.2.2 rfl rfl

lemma historyUpdate_eq_lastN {α : Type} (m : ℕ) (h b : List α) :
    historyUpdate m h b = lastN m (h ++ b) := by
  unfold historyUpdate lastN
  split_ifs with hlt
  · rfl
  · have h0 : (h ++ b).length - m = 0 := by omega
    rw [h0, List.drop_zero]

lemma lastN_append_left {α : Type} (n : ℕ) (l b : List α) :
    lastN n (lastN n l ++ b) = lastN n (l ++ b) := by
  unfold lastN
  rcases le_or_lt l.length n with h | h
  · have h0 : l.length - n = 0 := Nat.sub_eq_zero_of_le h
    rw [h0, List.drop_zero]
  · have h1 : (l.drop (l.length - n)).length = n := by
      rw [List.length_drop]
      omega
    rw [List.length_append, h1, List.length_append]
    have h2 : n + b.length - n = b.length := by omega
    rw [h2]
    have h3 : l.length + b.length - n = (l.length - n) + b.length := by omega
    rw [h3, ← List.drop_drop]
    have h5 : List.drop (l.length - n) (l ++ b) = List.drop (l.length - n) l ++ b := by
      rw [List.drop_append_eq_append_drop]
      have h4 : l.length - n - l.length = 0 := by omega
      rw [h4, List.drop_zero]
    rw [h5]

lemma foldl_historyUpdate {α : Type} (n : ℕ) (batches : List (List α)) :
    ∀ l : List α,
      List.foldl (historyUpdate n) (lastN n l) batches = lastN n (l ++ batches.flatten) := by
  induction batches with
  | nil =>
    intro l
    simp [lastN]
  | cons b bs ih =>
    intro l
    rw [List.foldl_cons, historyUpdate_eq_lastN, lastN_append_left, ih (l ++ b)]
    simp [List.append_assoc]

lemma lastN_nil {α : Type} (n : ℕ) : lastN n ([] : List α) = [] := by
  simp [lastN]

/-- Claim C6: starting from an empty history, after any sequence of wait calls
whose drained batches are `batches`, the history equals the trailing
`min(total drained, 20)` drained events in drain order; a wait that drains
nothing leaves the history unchanged; with `include_history` the snapshot
returned is the history exactly as it was before the newly drained events were
appended, and the updated history is the appended-then-trimmed one. -/
theorem c6_history_cap {α : Type} (batches : List (List α)) (h : List α) :
    List.foldl (historyUpdate 20) ([] : List α) batches = lastN 20 batches.flatten ∧
    (List.foldl (historyUpdate 20) ([] : List α) batches).length = min batches.flatten.length 20 ∧
    (h.length ≤ 20 → historyUpdate 20 h [] = h) ∧
    (∀ (timeoutSec t0 t1 : ℚ) (queue : List α) (arrival : Option (α × List α)),
      (waitForComments timeoutSec t0 t1 queue arrival h true 20).historySnapshot = some h ∧
      (waitForComments timeoutSec t0 t1 queue arrival h true 20).updatedHistory =
        historyUpdate 20 h
          (waitForComments timeoutSec t0 t1 queue arrival h true 20).newItems) := by
  have hfold : List.foldl (historyUpdate 20) ([] : List α) batches = lastN 20 batches.flatten := by
    have := foldl_historyUpdate 20 batches ([] : List α)
    rw [lastN_nil] at this
    rw [this]
    simp
  refine ⟨hfold, ?_, ?_, ?_⟩
  · rw [hfold]
    simp [lastN, List.length_drop]
    omega
  · intro hlen
    rw [historyUpdate_eq_lastN]
    unfold lastN
    simp only [List.append_nil]
    have h0 : h.length - 20 = 0 := by omega
    rw [h0, List.drop_zero]
  · intro timeoutSec t0 t1 queue arrival
    exact ⟨rfl, rfl⟩

theorem c6_witness :
    historyUpdate 20 [(0 : ℕ)] [] = [0] ∧
    List.foldl (historyUpdate 20) ([] : List ℕ) [[1], [2]] = lastN 20 [1, 2] :=
  ⟨(c6_history_cap [[1], [2]] [(0 : ℕ)]).2.2.1 (by simp),
   (c6_history_cap [[1], [2]] [(0 : ℕ)]).1⟩

/-- What `_do_transcribe` returns: the concatenated, stripped text and the
maximum `no_speech_prob` over the segments returned by the model. -/
structure TranscribeResult where
  text : String
  noSpeechProb : ℚ

/-- The mic event dict built at lines 439-444 of server.py. -/
structure MicEvent where
  text : String
  time : ℚ
  source : String
  durationSec : ℚ
deriving DecidableEq

/-- Rounding half to even, as Python round does, on an exact rational. -/
def roundHalfEven (x : ℚ) : ℤ :=
  if x - ⌊x⌋ < 1/2 then ⌊x⌋
  else if 1/2 < x - ⌊x⌋ then ⌊x⌋ + 1
  else if ⌊x⌋ % 2 = 0 then ⌊x⌋ else ⌊x⌋ + 1

/-- Python `round(x, 1)` on an exact rational. -/
def pyRound1 (x : ℚ) : ℚ := (roundHalfEven (10 * x) : ℚ) / 10

/-- The value `len(np.concatenate(speech_buf))`: the total sample count of the buffer. -/
def audioSampleCount (speechBuf : List (List ℚ)) : ℕ :=
  (speechBuf.map List.length).sum

/-- Model of `_transcribe_and_enqueue` (lines 388-445 of server.py) as a function of the
utterance buffer, whether a whisper model is loaded, and the outcome of the
(external) transcription call (`none` models an exception, which is caught and
swallowed).  Returns the event put on `event_queue` (if any) and whether the
speech-to-text call was reached. -/
def transcribeAndEnqueue (minSpeechSec noSpeechThreshold : ℚ)
    (speechBuf : List (List ℚ)) (hasModel : Bool)
    (stt : Option TranscribeResult) (now : ℚ) : Option MicEvent × Bool :=
  let duration : ℚ := (audioSampleCount speechBuf : ℚ) / 16000
  if duration < minSpeechSec then (none, false)
  else if hasModel = false then (none, false)
  else
    match stt with
    | none => (none, true)
    | some r =>
      if r.text = "" then (none, true)
      else if noSpeechThreshold < r.noSpeechProb then (none, true)
      else if duration < 3/2 ∧ 20 < r.text.length then (none, true)
      else (some { text := r.text, time := now, source := "mic",
                   durationSec := pyRound1 duration }, true)

/-- Claim C2: an utterance shorter than `min_speech_sec` is discarded without
reaching transcription; when it is transcribed, it is discarded exactly when
the text is empty, or `no_speech_prob > no_speech_threshold`, or the duration
is below 1.5 s while the text exceeds 20 characters; otherwise exactly one
event with `source = "mic"`, `time = now` and `duration_sec = round(duration, 1)`
is published. -/
theorem c2_dispatch_filters (minS noThr : ℚ) (buf : List (List ℚ)) (r : TranscribeResult)
    (now : ℚ) :
    ((audioSampleCount buf : ℚ) / 16000 < minS →
      transcribeAndEnqueue minS noThr buf true (some r) now = (none, false)) ∧
    (minS ≤ (audioSampleCount buf : ℚ) / 16000 →
      (transcribeAndEnqueue minS noThr buf true (some r) now).2 = true ∧
      ((transcribeAndEnqueue minS noThr buf true (some r) now).1 = none ↔
        (r.text = "" ∨ noThr < r.noSpeechProb ∨
         ((audioSampleCount buf : ℚ) / 16000 < 3/2 ∧ 20 < r.text.length))) ∧
      ((r.text ≠ "" ∧ r.noSpeechProb ≤ noThr ∧
        ¬((audioSampleCount buf : ℚ) / 16000 < 3/2 ∧ 20 < r.text.length)) →
        (transcribeAndEnqueue minS noThr buf true (some r) now).1 =
          some { text := r.text, time := now, source := "mic",
                 durationSec := pyRound1 ((audioSampleCount buf : ℚ) / 16000) })) := by
  constructor
  · intro hd
    unfold transcribeAndEnqueue
    simp only
    rw [if_pos hd]
  · intro hd
    unfold transcribeAndEnqueue
    simp only
    rw [if_neg (not_lt.mpr hd), if_neg (by simp : ¬(true = false))]
    split_ifs with he hn hs
    · exact ⟨rfl, by simp [he], fun hc => absurd he hc.1⟩
    · exact ⟨rfl, by simp [hn], fun hc => absurd hn (not_lt.mpr hc.2.1)⟩
    · exact ⟨rfl, by simp [hs], fun hc => absurd hs hc.2.2⟩
    · exact ⟨rfl, by simp [he, hn, hs], fun _ => rfl⟩

theorem c2_witness :
    transcribeAndEnqueue (1/1000) (4/5) [List.replicate 16 0] true
        (some { text := "hello", noSpeechProb := 1/10 }) 7 =
      (some { text := "hello", time := 7, source := "mic",
              durationSec := pyRound1 ((audioSampleCount [List.replicate 16 0] : ℚ) / 16000) },
       true) := by
  have h := (c2_dispatch_filters (1/1000) (4/5) [List.replicate 16 0]
      { text := "hello", noSpeechProb := 1/10 } 7).2 (by norm_num [audioSampleCount])
  have h1 := h.1
  have h2 := h.2.2 (by
    refine ⟨by decide, by norm_num, ?_⟩
    intro hcon
    exact absurd hcon.2 (by decide))
  exact Prod.ext h2 h1

/-- The four shapes of string `_speak_impl_locked` can return. -/
inductive SpeakOutcome : Type
  | blocked (st : VadState)
  | synthFailed (msg : String)
  | playFailed (msg : String)
  | success (text : String)
deriving DecidableEq

/-- The textual rendering of `mic_vad_state` inside the BLOCKED message. -/
def vadStateName : VadState → String
  | VadState.IDLE => "IDLE"
  | VadState.SPEAKING => "SPEAKING"
  | VadState.TRAILING => "TRAILING"

/-- The literal result strings of `_speak_impl_locked` (lines 731, 757, 780,
782 of server.py). -/
def SpeakOutcome.toMessage : SpeakOutcome → String
  | SpeakOutcome.blocked st =>
      "BLOCKED: 配信者が発話中です (state=" ++ vadStateName st ++ ")"
  | SpeakOutcome.synthFailed e => "音声合成に失敗しました: " ++ e
  | SpeakOutcome.playFailed e => "音声再生に失敗しました: " ++ e
  | SpeakOutcome.success t => "読み上げ完了: " ++ t

/-- Model of `_speak_impl_locked` (lines 723-782 of server.py).  `states i` is the value
of `ctx.mic_vad_state` seen by the i-th poll of the 50-iteration wait loop
(index 50 is the read producing the BLOCKED message); `synth` is the outcome of
the VOICEVOX query+synthesis block (`Except.error` models a raised-and-caught
exception) and `play` the outcome of the pygame playback block (carrying the
sound length on success).  The Bool records whether the synthesis block was
reached. -/
def speakImplLocked (states : ℕ → VadState) (synth : Except String (List ℕ))
    (play : Except String ℚ) (text : String) : SpeakOutcome × Bool :=
  if ∀ i < 50, states i ≠ VadState.IDLE then
    (SpeakOutcome.blocked (states 50), false)
  else
    match synth with
    | Except.error e => (SpeakOutcome.synthFailed e, true)
    | Except.ok _ =>
      match play with
      | Except.error e => (SpeakOutcome.playFailed e, true)
      | Except.ok _ => (SpeakOutcome.success text, true)

/-- Claim C7: if every one of the 50 polls (at 0.1 s intervals) sees a
non-IDLE segmenter state, `speak` returns a BLOCKED result carrying the current
state and the synthesis block is never reached; synthesis is reached only when
some poll saw IDLE; and the call always returns one of the four result strings
(BLOCKED, synthesis failure, playback failure, success) — never an exception. -/
theorem c7_speak_blocked (states : ℕ → VadState) (synth : Except String (List ℕ))
    (play : Except String ℚ) (text : String) :
    ((∀ i < 50, states i ≠ VadState.IDLE) →
      speakImplLocked states synth play text = (SpeakOutcome.blocked (states 50), false)) ∧
    ((speakImplLocked states synth play text).2 = true → ∃ i < 50, states i = VadState.IDLE) ∧
    ((speakImplLocked states synth play text).1.toMessage =
        SpeakOutcome.toMessage (SpeakOutcome.blocked (states 50)) ∨
     (∃ e, (speakImplLocked states synth play text).1 = SpeakOutcome.synthFailed e) ∨
     (∃ e, (speakImplLocked states synth play text).1 = SpeakOutcome.playFailed e) ∨
     (speakImplLocked states synth play text).1 = SpeakOutcome.success text) := by
  refine ⟨?_, ?_, ?_⟩
  · intro hall
    unfold speakImplLocked
    rw [if_pos hall]
  · intro hb
    unfold speakImplLocked at hb
    by_contra hno
    push_neg at hno
    have hall : ∀ i < 50, states i ≠ VadState.IDLE := hno
    rw [if_pos hall] at hb
    exact Bool.noConfusion hb
  · unfold speakImplLocked
    split_ifs with hall
    · exact Or.inl rfl
    · cases synth with
      | error e => exact Or.inr (Or.inl ⟨e, rfl⟩)
      | ok w =>
        cases play with
        | error e => exact Or.inr (Or.inr (Or.inl ⟨e, rfl⟩))
        | ok d => exact Or.inr (Or.inr (Or.inr rfl))

theorem c7_witness :
    speakImplLocked (fun _ => VadState.SPEAKING) (Except.ok []) (Except.ok 0) "test" =
      (SpeakOutcome.blocked VadState.SPEAKING, false) :=
  (c7_speak_blocked (fun _ => VadState.SPEAKING) (Except.ok []) (Except.ok 0) "test").1
    (fun i _ => by simp)

lemma preBufferFrames_default : preBufferFrames (3/10) 16000 512 = 9 := by
  unfold preBufferFrames pyTrunc
  rw [show ((3 : ℚ)/10) * (16000 : ℕ) / (512 : ℕ) = 75/8 by norm_num]
  rw [if_pos (by norm_num : (0 : ℚ) ≤ 75/8)]
  norm_num
  rfl

/-- Counterexample to claim C8: with the default `pre_buffer_sec = 0.3`,
16000 Hz and 512-sample frames, the source computes
`max(1, int(0.3 * 16000 / 512)) = max(1, int(9.375)) = 9`, not the ceiling
`⌈9.375⌉ = 10` stated by the claim. -/
theorem c8_counterexample :
    preBufferFrames (3/10) 16000 512 = 9 ∧
    Int.toNat ⌈(3/10 : ℚ) * 16000 / 512⌉ = 10 ∧
    preBufferFrames (3/10) 16000 512 ≠ Int.toNat ⌈(3/10 : ℚ) * 16000 / 512⌉ := by
  have hceil : Int.toNat ⌈(3/10 : ℚ) * 16000 / 512⌉ = 10 := by
    rw [show ((3 : ℚ)/10) * 16000 / 512 = 75/8 by norm_num]
    rw [show ((75 : ℚ)/8) = -(-(75/8)) by ring, Int.ceil_neg,
        show ⌊-((75 : ℚ)/8)⌋ = -10 by norm_num]
    rfl
  exact ⟨preBufferFrames_default, hceil,
    by rw [preBufferFrames_default, hceil]; omega⟩

/-- Claim C8 as amended: the ring capacity is
`max(1, ⌊pre_buffer_sec * sample_rate / frame_samples⌋)` — 9 frames for the
defaults, not the ceiling — and the ring size never exceeds the capacity, the
oldest frame being evicted when an append happens at capacity. -/
theorem c8_capacity_amended {F : Type} (cap : ℕ) (r : List F) (f : F) :
    preBufferFrames (3/10) 16000 512 = 9 ∧
    (pushRing cap r f).length = min (r.length + 1) cap ∧
    (r.length < cap → pushRing cap r f = r ++ [f]) ∧
    (1 ≤ cap → r.length = cap → pushRing cap r f = r.drop 1 ++ [f]) := by
  refine ⟨preBufferFrames_default, pushRing_length cap r f, pushRing_of_lt cap r f, ?_⟩
  intro hc hf
  unfold pushRing
  have h1 : (r ++ [f]).length - cap = 1 := by simp [hf]
  rw [h1]
  rw [List.drop_append_eq_append_drop]
  have h2 : 1 - r.length = 0 := by omega
  rw [h2, List.drop_zero]

theorem c8_witness :
    pushRing 2 [10, 11] (12 : ℕ) = [11, 12] :=
  (c8_capacity_amended 2 [10, 11] (12 : ℕ)).2.2.2 (by omega) rfl

/-- One input of the crash-aware loop model: `score = none` stands for
`vad.process` raising an exception on that frame. -/
structure MicInputE (F : Type) where
  frame : F
  score : Option ℚ
  now : ℚ

/-- What the source actually does when `vad.process` raises (lines 448-458 and
511-522 of server.py): the exception escapes the frame loop of
`_continuous_mic_loop` (there is no handler around the scoring call), the
whole loop function crashes, and `_mic_loop_with_restart` restarts it after a
5 s backoff — with freshly initialised state, so the accumulated utterance
buffer, ring and state are discarded and no utterance is emitted. -/
def micStepVadCrash {F : Type} (cfg : MicConfig) (s : SegState F) (i : MicInputE F) :
    SegState F × Option (List F) :=
  match i.score with
  | some p => micStep cfg s i.frame p i.now
  | none => (initialSegState F, none)

/-- The supervised loop run over crash-aware inputs. -/
def micRunVadCrash {F : Type} (cfg : MicConfig) (s : SegState F) :
    List (MicInputE F) → SegState F × List (List F)
  | [] => (s, [])
  | i :: rest =>
    let step := micStepVadCrash cfg s i
    let restRun := micRunVadCrash cfg step.1 rest
    (restRun.1, step.2.toList ++ restRun.2)

/-- The per-frame behaviour claim C9 ascribes to the code, stated from the
wording of the spec: a scorer exception leaves the segmenter state uncorrupted, the
frame is treated as carrying the lowest-confidence score (0) and the
IDLE/TRAILING logic proceeds.  Named apart so it can be compared with
`micStepVadCrash`, the model of what the source does. -/
def micStepSpecDefensive {F : Type} (cfg : MicConfig) (s : SegState F) (i : MicInputE F) :
    SegState F × Option (List F) :=
  micStep cfg s i.frame (i.score.getD 0) i.now

/-- A concrete segmenter state: SPEAKING with one buffered frame. -/
def segSpeaking1 : SegState ℕ :=
  { state := VadState.SPEAKING, ringBuf := [], speechBuf := [1],
    speechStart := 0, silenceStart := 0 }

/-- Counterexample to claim C9: while SPEAKING with one buffered frame, a
scorer exception makes the source discard the whole segmenter state (the
restarted loop is IDLE with an empty buffer), whereas the claimed
lowest-score treatment would keep the buffer and move to TRAILING. -/
theorem c9_counterexample :
    (micStepVadCrash micCfgD segSpeaking1 ⟨2, none, 1⟩).1.speechBuf = [] ∧
    (micStepVadCrash micCfgD segSpeaking1 ⟨2, none, 1⟩).1.state = VadState.IDLE ∧
    (micStepSpecDefensive micCfgD segSpeaking1 ⟨2, none, 1⟩).1.speechBuf = [1, 2] ∧
    (micStepSpecDefensive micCfgD segSpeaking1 ⟨2, none, 1⟩).1.state = VadState.TRAILING ∧
    micStepVadCrash micCfgD segSpeaking1 ⟨2, none, 1⟩ ≠
      micStepSpecDefensive micCfgD segSpeaking1 ⟨2, none, 1⟩ := by
  have hdef : micStepSpecDefensive micCfgD segSpeaking1 ⟨2, none, 1⟩ =
      ({ state := VadState.TRAILING, ringBuf := [], speechBuf := [1, 2],
         speechStart := 0, silenceStart := 1 }, none) := by
    show micStep micCfgD segSpeaking1 2 ((none : Option ℚ).getD 0) 1 = _
    simp only [Option.getD_none, micStep, segSpeaking1]
    rw [if_neg (by norm_num [micCfgD]), if_pos (by norm_num [micCfgD])]
    rfl
  refine ⟨rfl, rfl, ?_, ?_, ?_⟩
  · rw [hdef]
  · rw [hdef]
  · intro hcon
    have h1 : (micStepVadCrash micCfgD segSpeaking1 ⟨2, none, 1⟩).1.speechBuf = [] := rfl
    rw [hcon, hdef] at h1
    exact List.noConfusion h1

/-- Claim C9 as amended: a scorer exception does not terminate the capture
task — `_mic_loop_with_restart` restarts `_continuous_mic_loop`, and the run
simply continues over the remaining frames — but it does so from the freshly
initialised IDLE state: the in-progress segmenter state is discarded, no
utterance is produced by the crashing frame, and the frame is not rescored. -/
theorem c9_crash_restart {F : Type} (cfg : MicConfig) (s : SegState F) (f : F) (t : ℚ)
    (rest : List (MicInputE F)) :
    micRunVadCrash cfg s (⟨f, none, t⟩ :: rest) =
      micRunVadCrash cfg (initialSegState F) rest := by
  simp [micRunVadCrash, micStepVadCrash]
